import Mathlib

/-!
Verification of the move-selection subsystem, session state machine and
persistence codec of the Chess-Game repository (`src/main.py`), over a
shallow embedding.

The rules engine (the external `python-chess` library) is not part of the
repository; positions are therefore embedded as finitely-branching game
trees (`GPos`): the fields of a node record exactly what `main.py` reads
through the rules-engine interface (piece placement, side to move, terminal
flags) and the children record the legal-move enumeration (`board.legal_moves`)
together with the position reached by `board.push`.
-/

/-- Embedding of `chess.Piece`: `piece_type` is 1..6 (PAWN..KING) for real
pieces, `color` is `true` for `chess.WHITE`. -/
structure Piece where
  piece_type : Nat
  color : Bool
deriving DecidableEq

/-- Embedding of `chess.Move`: origin square, destination square (0..63) and
optional promotion piece type. -/
structure Move where
  from_square : Nat
  to_square : Nat
  promotion : Option Nat
deriving DecidableEq

/-- Embedding of `PIECE_VALUES.get(piece_type, 0)` from `main.py` lines 42-49. -/
def PIECE_VALUES_get : Nat → Int
  | 1 => 100
  | 2 => 320
  | 3 => 330
  | 4 => 500
  | 5 => 900
  | 6 => 20000
  | _ => 0

/-- The loop body of `material_evaluation` (`main.py` lines 51-59): add the
piece value for white pieces, subtract it for black pieces. -/
def matStep (pieceAt : Nat → Option Piece) (score : Int) (sq : Nat) : Int :=
  match pieceAt sq with
  | some p => score + (if p.color then PIECE_VALUES_get p.piece_type else - PIECE_VALUES_get p.piece_type)
  | none => score

/-- Embedding of `material_evaluation(board)` (`main.py` lines 51-59): iterate over the 64
squares (`chess.SQUARES = range(64)`) accumulating signed piece values. -/
def material_evaluation (pieceAt : Nat → Option Piece) : Int :=
  (List.range 64).foldl (matStep pieceAt) 0

/-- Color-mirroring of a piece placement: every piece replaced by the same
piece type of the opposite color (the mirror operation of claim C4). -/
def mirrorPieces (pieceAt : Nat → Option Piece) : Nat → Option Piece :=
  fun sq => (pieceAt sq).map (fun p => ⟨p.piece_type, !p.color⟩)

/-- A game position as observed through the rules-engine interface used by
`main.py`: piece placement (`board.piece_at`), side to move (`board.turn`,
`true` = white), the terminal predicates read by the code
(`board.is_game_over`, `board.is_checkmate`, `board.is_stalemate`,
`board.is_insufficient_material`, `board.can_claim_fifty_moves`,
`board.can_claim_threefold_repetition`), and the legal moves
(`board.legal_moves`, in enumeration order) paired with the position
reached by pushing each of them. -/
inductive GPos : Type where
  | mk
    (pieceAt : Nat → Option Piece)
    (turn : Bool)
    (gameOver : Bool)
    (checkmate : Bool)
    (stalemate : Bool)
    (insufficientMaterial : Bool)
    (canClaimFiftyMoves : Bool)
    (canClaimThreefold : Bool)
    (moves : List (Move × GPos)) : GPos

def GPos.pieceAt : GPos → Nat → Option Piece
  | .mk f _ _ _ _ _ _ _ _ => f

def GPos.turn : GPos → Bool
  | .mk _ t _ _ _ _ _ _ _ => t

def GPos.gameOver : GPos → Bool
  | .mk _ _ g _ _ _ _ _ _ => g

def GPos.checkmate : GPos → Bool
  | .mk _ _ _ c _ _ _ _ _ => c

def GPos.stalemate : GPos → Bool
  | .mk _ _ _ _ s _ _ _ _ => s

def GPos.insufficientMaterial : GPos → Bool
  | .mk _ _ _ _ _ i _ _ _ => i

def GPos.canClaimFiftyMoves : GPos → Bool
  | .mk _ _ _ _ _ _ f _ _ => f

def GPos.canClaimThreefold : GPos → Bool
  | .mk _ _ _ _ _ _ _ t _ => t

def GPos.moves : GPos → List (Move × GPos)
  | .mk _ _ _ _ _ _ _ _ ms => ms

/-- Reading `board.legal_moves` as the list of move labels of the children. -/
def GPos.legalMoves (p : GPos) : List Move :=
  p.moves.map Prod.fst

/-- Reading `board.push(move)` as a step to the child labelled by the move (callers in
`main.py` only push moves they checked to be legal; on an unknown label the
position is returned unchanged). -/
def GPos.pushB (p : GPos) (m : Move) : GPos :=
  match p.moves.find? (fun mq => decide (mq.1 = m)) with
  | some mq => mq.2
  | none => p

/-- Well-formedness of a position tree, the two facts about the external
rules engine that the search relies on: a position with no legal moves is
game over (in chess it is checkmate or stalemate), recursively at every
reachable node. -/
inductive WFPos : GPos → Prop where
  | mk : ∀ (p : GPos),
      (p.gameOver = false → p.moves ≠ []) →
      (∀ mq ∈ p.moves, WFPos mq.2) → WFPos p

theorem WFPos.no_moves_over {p : GPos} (h : WFPos p) : p.gameOver = false → p.moves ≠ [] := by
  cases h; assumption

theorem WFPos.children {p : GPos} (h : WFPos p) : ∀ mq ∈ p.moves, WFPos mq.2 := by
  cases h; assumption

/-- The `for move in board.legal_moves` loop of `negamax`
(`main.py` lines 65-76), with `max_eval` and `alpha` as accumulators;
`f` is the recursive call at depth-1 (arguments: position, alpha, beta,
color) and the `break` on `alpha >= beta` is the early return. -/
def nmGo (f : GPos → Int → Int → Int → Int) (beta color : Int) :
    List (Move × GPos) → Int → Int → Int
  | [], max_eval, _alpha => max_eval
  | (_m, q) :: rest, max_eval, alpha =>
    let val : Int := - f q (-beta) (-alpha) (-color)
    let max_eval1 := if max_eval < val then val else max_eval
    let alpha1 := max alpha val
    if beta ≤ alpha1 then max_eval1
    else nmGo f beta color rest max_eval1 alpha1

/-- Embedding of `negamax(board, depth, alpha, beta, color)` (`main.py` lines 61-77). -/
def negamax : Nat → GPos → Int → Int → Int → Int
  | 0, board, _alpha, _beta, color => color * material_evaluation board.pieceAt
  | depth + 1, board, alpha, beta, color =>
    if board.gameOver then color * material_evaluation board.pieceAt
    else nmGo (negamax depth) beta color board.moves (-(10 ^ 9 : Int)) alpha

/-- The root loop of `find_best_move_negamax` (`main.py` lines 82-89):
tracks the best score and the move that produced it; every move is searched
with the full window `(-10**9, 10**9)`. -/
def fbmGo (f : GPos → Int → Int → Int → Int) (color : Int) :
    List (Move × GPos) → Int → Option Move → Option Move
  | [], _best, best_move => best_move
  | (m, q) :: rest, best, best_move =>
    let val : Int := - f q (-(10 ^ 9 : Int)) (10 ^ 9 : Int) (-color)
    if best < val then fbmGo f color rest val (some m)
    else fbmGo f color rest best best_move

/-- Embedding of `find_best_move_negamax(board, depth)` (`main.py` lines 79-90). -/
def find_best_move_negamax (board : GPos) (depth : Nat) : Option Move :=
  let color : Int := if board.turn then 1 else -1
  fbmGo (negamax (depth - 1)) color board.moves (-(10 ^ 9 : Int)) none

/-- The sign factor of the side to move at the root (`main.py` line 81). -/
def rootPerspective (p : GPos) : Int :=
  if p.turn then 1 else -1

/-!
## Session state machine (`ChessApp`)

The fields of `ChessApp` that the click handler, AI dispatch and the
captured-piece tally read or write.  UI-only side effects (canvas drawing,
sounds, image loading, the `after(...)` scheduling of callbacks) have no
synchronous effect on these fields and are dropped.
-/

structure MachineState where
  board : GPos
  move_history : List Move
  selected_sq : Option Nat
  legal_squares : List Nat
  ai_thinking : Bool
  ai_enabled : Bool
  human_color : Bool
  captured_by_white_symbols : List Char
  captured_by_black_symbols : List Char

/-- Embedding of `chess.piece_symbol(piece_type)`: lowercase letter for 1..6, failure
(`IndexError` / `None.upper()` in Python) otherwise. -/
def typeSymbol : Nat → Option Char
  | 1 => some 'p'
  | 2 => some 'n'
  | 3 => some 'b'
  | 4 => some 'r'
  | 5 => some 'q'
  | 6 => some 'k'
  | _ => none

/-- Embedding of `piece.symbol()`: the type letter, uppercased for white. -/
def Piece.symbolC (p : Piece) : Option Char :=
  (typeSymbol p.piece_type).map (fun c => if p.color then c.toUpper else c)

/-- Embedding of `_add_captured_piece(piece)` (`main.py` lines 647-690), restricted to the
symbol tallies: a white captured piece is appended to
`captured_by_black_symbols`, a black one to `captured_by_white_symbols`.
If `piece.symbol()` fails (invalid piece type) the exception handler leaves
the tallies unchanged; the image/canvas work is UI-only. -/
def add_captured_piece (s : MachineState) (p : Piece) : MachineState :=
  match p.symbolC with
  | none => s
  | some sym =>
    if p.color then { s with captured_by_black_symbols := s.captured_by_black_symbols ++ [sym] }
    else { s with captured_by_white_symbols := s.captured_by_white_symbols ++ [sym] }

/-- Embedding of `_push_move(move)` (`main.py` lines 633-645): record a capture if the
destination square is occupied, then push the move and append it to the
history. -/
def push_move (s : MachineState) (move : Move) : MachineState :=
  match s.board.pieceAt move.to_square with
  | some captured =>
    let s1 := add_captured_piece s captured
    { s1 with board := s1.board.pushB move, move_history := s1.move_history ++ [move] }
  | none =>
    { s with board := s.board.pushB move, move_history := s.move_history ++ [move] }

/-- Embedding of the set comprehension over legal destinations,
`\x7bm.to_square for m in self.board.legal_moves if m.from_square==sq\x7d`
(`main.py` lines 606 and 627). -/
def selectSquares (b : GPos) (sq : Nat) : List Nat :=
  (b.legalMoves.filter (fun m => decide (m.from_square = sq))).map Move.to_square

/-- The move that a click on `sq` with selection `sel` attempts
(`main.py` lines 608-613): the plain move, upgraded to a queen promotion
when the selected piece is a pawn, the target rank is 0 or 7, and the
promotion move is legal (`chess.PAWN = 1`, `chess.QUEEN = 5`,
`chess.square_rank(sq) = sq >> 3`). -/
def clickMove (s : MachineState) (sel sq : Nat) : Move :=
  if (s.board.pieceAt sel).map Piece.piece_type = some 1 ∧ (sq / 8 = 0 ∨ sq / 8 = 7) then
    (if (⟨sel, sq, some 5⟩ : Move) ∈ s.board.legalMoves then ⟨sel, sq, some 5⟩ else ⟨sel, sq, none⟩)
  else ⟨sel, sq, none⟩

/-- Embedding of `on_square_click(sq)` (`main.py` lines 596-631).  The `after(100,
self._ai_move_async)` call only schedules a callback and mutates nothing
synchronously; `_render_board()` is display-only. -/
def on_square_click (s : MachineState) (sq : Nat) : MachineState :=
  if s.ai_thinking then s
  else
    match s.selected_sq with
    | none =>
      match s.board.pieceAt sq with
      | some p =>
        if (p.color == s.human_color) || !s.ai_enabled then
          { s with selected_sq := some sq, legal_squares := selectSquares s.board sq }
        else s
      | none => s
    | some sel =>
      if clickMove s sel sq ∈ s.board.legalMoves then
        { push_move s (clickMove s sel sq) with selected_sq := none, legal_squares := [] }
      else
        match s.board.pieceAt sq with
        | some p =>
          if p.color == s.human_color then
            { s with selected_sq := some sq, legal_squares := selectSquares s.board sq }
          else { s with selected_sq := none, legal_squares := [] }
        | none => { s with selected_sq := none, legal_squares := [] }

/-- Embedding of `_ai_move_async()` (`main.py` lines 734-740) as a state transformer;
the boolean records whether a worker thread was started. -/
def ai_move_async (s : MachineState) : MachineState × Bool :=
  if s.ai_thinking || s.board.gameOver then (s, false)
  else ({ s with ai_thinking := true }, true)

/-- The game-over messages displayed by `_render_board`
(`main.py` lines 576-588); for checkmate the winner is the side *not* to
move. -/
inductive GOReason : Type where
  | checkmateWin (winner : Bool)
  | stalemateDraw
  | insufficientDraw
  | fiftyDraw
deriving DecidableEq

/-- The terminal-condition cascade at the end of `_render_board`
(`main.py` lines 576-588): the first matching condition, in the fixed order
checkmate, stalemate, insufficient material, fifty-move claim, triggers the
game-over overlay (`show_game_over_ui`); `none` means play continues. -/
def render_board_game_over (b : GPos) : Option GOReason :=
  if b.checkmate then some (GOReason.checkmateWin (!b.turn))
  else if b.stalemate then some GOReason.stalemateDraw
  else if b.insufficientMaterial then some GOReason.insufficientDraw
  else if b.canClaimFiftyMoves then some GOReason.fiftyDraw
  else none

/-!
## Persistence codec (`save_game_state` / `load_game_state`)

Config values are modelled as character lists and the `[GameState]` section
of the ini file as an association list from key to value (`configparser`
stores these values verbatim for the strings this program writes).
-/

/-- Python `str.split()` (split on runs of spaces, dropping empty pieces). -/
def splitWSAux : List Char → List Char → List (List Char)
  | [], acc => if acc = [] then [] else [acc.reverse]
  | c :: rest, acc =>
    if c = ' ' then
      (if acc = [] then splitWSAux rest [] else acc.reverse :: splitWSAux rest [])
    else splitWSAux rest (c :: acc)

def splitWS (l : List Char) : List (List Char) :=
  splitWSAux l []

/-- Python `" ".join(parts)`. -/
def joinSpace : List (List Char) → List Char
  | [] => []
  | [x] => x
  | x :: xs => x ++ ' ' :: joinSpace xs

/-- Python `sep.split(...)` for a single separator, keeping empty pieces. -/
def splitOnAux (sep : Char) : List Char → List Char → List (List Char)
  | [], acc => [acc.reverse]
  | c :: rest, acc =>
    if c = sep then acc.reverse :: splitOnAux sep rest []
    else splitOnAux sep rest (c :: acc)

def splitOnC (sep : Char) (l : List Char) : List (List Char) :=
  splitOnAux sep l []

/-- Python `int(s)` on an unsigned digit string. -/
def parseNatM (l : List Char) : Option Nat :=
  if l = [] then none
  else
    l.foldl
      (fun acc c =>
        match acc with
        | none => none
        | some n => if c.isDigit then some (n * 10 + (c.toNat - 48)) else none)
      (some 0)

/-- Python `int(s)` (optional sign, digits; raising = `none`). -/
def parseIntM : List Char → Option Int
  | '-' :: rest => (parseNatM rest).map (fun n => -(n : Int))
  | '+' :: rest => (parseNatM rest).map (fun n => (n : Int))
  | l => (parseNatM l).map (fun n => (n : Int))

/-- Embedding of the boolean conversion of configparser (`getboolean`): the lowercased value
must be one of `1/yes/true/on` or `0/no/false/off`, anything else raises. -/
def getbooleanM (l : List Char) : Option Bool :=
  let s := l.map Char.toLower
  if s = ("1").data ∨ s = ("yes").data ∨ s = ("true").data ∨ s = ("on").data then some true
  else if s = ("0").data ∨ s = ("no").data ∨ s = ("false").data ∨ s = ("off").data then some false
  else none

/-- Embedding of `chess.square_name(sq)`: file letter then rank digit. -/
def SQUARE_NAME (sq : Nat) : List Char :=
  [Char.ofNat (97 + sq % 8), Char.ofNat (49 + sq / 8)]

/-- Embedding of `chess.Move.uci()`: square names, promotion letter if any, `"0000"` for
the null move. -/
def Move.uci (m : Move) : List Char :=
  match m.promotion with
  | some pr => SQUARE_NAME m.from_square ++ SQUARE_NAME m.to_square ++ [(typeSymbol pr).getD '?']
  | none =>
    if m.from_square = 0 ∧ m.to_square = 0 then ['0', '0', '0', '0']
    else SQUARE_NAME m.from_square ++ SQUARE_NAME m.to_square

/-- Parsing a two-character square name (`a1`..`h8`). -/
def parseSquareName : Char → Char → Option Nat := fun cf cr =>
  if 97 ≤ cf.toNat ∧ cf.toNat ≤ 104 ∧ 49 ≤ cr.toNat ∧ cr.toNat ≤ 56 then
    some (8 * (cr.toNat - 49) + (cf.toNat - 97))
  else none

/-- The inverse of `typeSymbol` (`chess.PIECE_SYMBOLS.index`). -/
def typeOfSymbol (c : Char) : Option Nat :=
  if c = 'p' then some 1
  else if c = 'n' then some 2
  else if c = 'b' then some 3
  else if c = 'r' then some 4
  else if c = 'q' then some 5
  else if c = 'k' then some 6
  else none

/-- Embedding of `chess.Move.from_uci(uci)`: `"0000"` is the null move; otherwise 4 or 5
characters, two square names, an optional promotion letter, and origin must
differ from destination; anything else raises (= `none`). -/
def Move.from_uci (l : List Char) : Option Move :=
  if l = ['0', '0', '0', '0'] then some ⟨0, 0, none⟩
  else
    match l with
    | [a, b, c, d] =>
      match parseSquareName a b, parseSquareName c d with
      | some f, some t => if f = t then none else some ⟨f, t, none⟩
      | _, _ => none
    | [a, b, c, d, e] =>
      match parseSquareName a b, parseSquareName c d, typeOfSymbol e with
      | some f, some t, some pr => if f = t then none else some ⟨f, t, some pr⟩
      | _, _, _ => none
    | _ => none

/-- Modelled from the spec: `fromPersistable` validation by the external
Rules Engine adapter (`chess.Board(fen)`, python-chess, not part of this
repository): a FEN parses when it has at most six space-separated fields,
the board field has eight ranks of file-sum eight over valid piece letters
and digits, the turn field is `w` or `b`, the castling field is `-` or
`KQkq` letters, the en-passant field is `-` or a square name, and the move
counters are integers. -/
def rankSumOk (r : List Char) : Bool :=
  (r.foldl
    (fun acc c =>
      match acc with
      | none => none
      | some n =>
        if 49 ≤ c.toNat ∧ c.toNat ≤ 56 then some (n + (c.toNat - 48))
        else if (typeOfSymbol c.toLower).isSome then some (n + 1)
        else none)
    (some 0)) = some 8

def fenBoardOk (bp : List Char) : Bool :=
  let ranks := splitOnC '/' bp
  ranks.length = 8 ∧ ranks.all rankSumOk

def fenTurnOk (t : List Char) : Bool :=
  t = ("w").data ∨ t = ("b").data

def fenCastlingOk (c : List Char) : Bool :=
  c = ("-").data ∨ (c ≠ [] ∧ c.all (fun ch => ch = 'K' ∨ ch = 'Q' ∨ ch = 'k' ∨ ch = 'q'))

def fenEpOk (e : List Char) : Bool :=
  decide (e = ("-").data) ||
    (match e with
     | [a, b] => (parseSquareName a b).isSome
     | _ => false)

def fenNumOk (n : List Char) : Bool :=
  (parseIntM n).isSome

def fenCheck (l : List Char) : Bool :=
  match splitWS l with
  | [bp] => fenBoardOk bp
  | [bp, t] => fenBoardOk bp ∧ fenTurnOk t
  | [bp, t, c] => fenBoardOk bp ∧ fenTurnOk t ∧ fenCastlingOk c
  | [bp, t, c, e] => fenBoardOk bp ∧ fenTurnOk t ∧ fenCastlingOk c ∧ fenEpOk e
  | [bp, t, c, e, h] => fenBoardOk bp ∧ fenTurnOk t ∧ fenCastlingOk c ∧ fenEpOk e ∧ fenNumOk h
  | [bp, t, c, e, h, f] =>
    fenBoardOk bp ∧ fenTurnOk t ∧ fenCastlingOk c ∧ fenEpOk e ∧ fenNumOk h ∧ fenNumOk f
  | _ => false

/-- Embedding of `chess.STARTING_FEN`. -/
def STARTING_FEN : List Char :=
  ("rnbqkbnr/pppppppp/8/8/8/8/PPPPPPPP/RNBQKBNR w KQkq - 0 1").data

/-- The position as carried by the persistence layer: its persistable
notation (`board.fen()`).  Modelled from the spec: the Rules Engine
`toPersistable`/`fromPersistable` round trip — `Board(fen).fen() == fen`
for fens produced by `Board.fen()`. -/
structure BoardP where
  fen : List Char
deriving DecidableEq

/-- Embedding of `chess.Board(fen)`: fails (raises) on a fen rejected by the parser. -/
def BoardP_ofFen (l : List Char) : Option BoardP :=
  if fenCheck l then some ⟨l⟩ else none

/-- The fields of `ChessApp` that `save_game_state`/`load_game_state`
read and write. -/
structure PersistState where
  board : BoardP
  move_history : List Move
  human_color : Bool
  ai_enabled : Bool
  search_depth : Int
  captured_by_white_symbols : List Char
  captured_by_black_symbols : List Char
  has_saved_game : Bool
deriving DecidableEq

/-- A `ChessApp` as built by `__init__` (`main.py` lines 114-130) before
`load_game_state` runs: initial board, empty history, human plays white,
AI enabled, search depth 2. -/
def freshPersistState : PersistState :=
  { board := ⟨STARTING_FEN⟩
    move_history := []
    human_color := true
    ai_enabled := true
    search_depth := 2
    captured_by_white_symbols := []
    captured_by_black_symbols := []
    has_saved_game := false }

/-- Embedding of `config["GameState"].get(key, default)`. -/
def getKeyD (sec : List (String × List Char)) (k : String) (d : List Char) : List Char :=
  match sec.lookup k with
  | some v => v
  | none => d

/-- Embedding of `config["GameState"][key] = value` (overwrite or append). -/
def setKey (sec : List (String × List Char)) (k : String) (v : List Char) :
    List (String × List Char) :=
  if (sec.lookup k).isSome then sec.map (fun kv => if kv.1 = k then (k, v) else kv)
  else sec ++ [(k, v)]

/-- Embedding of `on_difficulty_change` (`main.py` lines 538-541): map the difficulty
label to a search depth, defaulting to 2. -/
def difficulty_depth_mapping (c : List Char) : Int :=
  if c = ("Easy").data then 1
  else if c = ("Medium").data then 2
  else if c = ("Hard").data then 3
  else 2

/-- Embedding of `load_game_state()` (`main.py` lines 262-286).  The argument `cfg` is
the `[GameState]` section of the config file (`none` when the file is
missing or has no such section).  The `try` block assigns `self.board`,
`self.move_history`, `self.human_color`, ... in order; an exception at any
step keeps the assignments already made and sets `has_saved_game = False`.
Failure points are `chess.Board(fen)`, `chess.Move.from_uci`, `getboolean`
and `getint`. -/
def load_game_state (app : PersistState) (cfg : Option (List (String × List Char))) :
    PersistState :=
  match cfg with
  | none => app
  | some sec =>
    match BoardP_ofFen (getKeyD sec ("fen") STARTING_FEN) with
    | none => { app with has_saved_game := false }
    | some b =>
      match ((splitWS (getKeyD sec ("moves") [])).filter (fun t => t ≠ [])).mapM Move.from_uci with
      | none => { app with board := b, has_saved_game := false }
      | some ms =>
        let hc := decide (getKeyD sec ("human_color") (("white").data) = ("white").data)
        match (match sec.lookup ("ai_enabled") with
               | none => some true
               | some v => getbooleanM v) with
        | none =>
          { app with board := b, move_history := ms, human_color := hc, has_saved_game := false }
        | some ai =>
          match (match sec.lookup ("search_depth") with
                 | none => some (3 : Int)
                 | some v => parseIntM v) with
          | none =>
            { app with
              board := b, move_history := ms, human_color := hc, ai_enabled := ai,
              has_saved_game := false }
          | some dep =>
            { board := b
              move_history := ms
              human_color := hc
              ai_enabled := ai
              search_depth := dep
              captured_by_white_symbols := getKeyD sec ("captured_by_white") []
              captured_by_black_symbols := getKeyD sec ("captured_by_black") []
              has_saved_game := true }

/-- Embedding of `save_game_state(clear)` (`main.py` lines 288-320), restricted to the
`[GameState]` section (the `[Geometry]` section is owned by the excluded UI
layer).  Note lines 306-308: the difficulty label is read back from the
*existing* config (default `"Medium"`) and `on_difficulty_change()` is
invoked, which overwrites `self.search_depth` before it is written out —
the function returns the updated section and the mutated state. -/
def save_game_state (cfg : Option (List (String × List Char))) (s : PersistState)
    (clear : Bool) : Option (List (String × List Char)) × PersistState :=
  if clear then (none, s)
  else
    let sec0 := cfg.getD []
    let sec1 := setKey sec0 ("fen") s.board.fen
    let sec2 := setKey sec1 ("moves") (joinSpace (s.move_history.map Move.uci))
    let sec3 := setKey sec2 ("human_color") (if s.human_color then ("white").data else ("black").data)
    let sec4 := setKey sec3 ("ai_enabled") (if s.ai_enabled then ("True").data else ("False").data)
    let difficulty := getKeyD sec4 ("difficulty") (("Medium").data)
    let newDepth := difficulty_depth_mapping difficulty
    let sec5 := setKey sec4 ("difficulty") difficulty
    let sec6 := setKey sec5 ("captured_by_white") s.captured_by_white_symbols
    let sec7 := setKey sec6 ("captured_by_black") s.captured_by_black_symbols
    let sec8 := setKey sec7 ("search_depth") ((toString newDepth).data)
    (some sec8, { s with search_depth := newDepth })

/-!
## External engine bridge (`_ai_move_worker`, stockfish path)
-/

/-- The observable outcome of one `_ai_move_worker` run on the stockfish
path: the move it will deliver, whether a child engine process was spawned,
and whether that process was terminated (`engine.quit()`) before the call
returned. -/
structure WorkerOutcome where
  move : Option Move
  engine_spawned : Bool
  engine_terminated : Bool
deriving DecidableEq

/-- The environment of one external-engine call: whether
`chess.engine.SimpleEngine.popen_uci` succeeds, and — when it does —
either `some r` when `engine.play` returns a result whose move is `r`,
or `none` when `engine.play` raises (protocol error). -/
structure EngineCallOutcome where
  spawn_ok : Bool
  play_result : Option (Option Move)
deriving DecidableEq

/-- The stockfish branch of `_ai_move_worker` (`main.py` lines 746-758):
spawn the engine, ask it to play, `engine.quit()`, read the move; any
exception falls back to `find_best_move_negamax` with the same board and
depth.  `engine.quit()` is only reached when `engine.play` returns
normally. -/
def ai_move_worker_engine_path (o : EngineCallOutcome) (board : GPos) (depth : Nat) :
    WorkerOutcome :=
  if o.spawn_ok then
    match o.play_result with
    | some r => { move := r, engine_spawned := true, engine_terminated := true }
    | none =>
      { move := find_best_move_negamax board depth
        engine_spawned := true
        engine_terminated := false }
  else
    { move := find_best_move_negamax board depth
      engine_spawned := false
      engine_terminated := false }

/-!
## Static evaluator: zero-sum symmetry and bounds
-/

theorem matStep_mirror (pieceAt : Nat → Option Piece) (a : Int) (sq : Nat) :
    matStep (mirrorPieces pieceAt) (-a) sq = -(matStep pieceAt a sq) := by
  unfold matStep mirrorPieces
  cases h : pieceAt sq with
  | none => simp [h]
  | some p =>
    rcases p with ⟨t, c⟩
    cases c <;> simp [h] <;> ring

theorem matFold_mirror (pieceAt : Nat → Option Piece) :
    ∀ (l : List Nat) (a : Int),
      l.foldl (matStep (mirrorPieces pieceAt)) (-a) = -(l.foldl (matStep pieceAt) a)
  | [], a => rfl
  | sq :: l, a => by
    rw [List.foldl_cons, List.foldl_cons, matStep_mirror, matFold_mirror pieceAt l]

/-- C4: the static evaluation is zero-sum: evaluating the color-mirrored
position (every piece replaced by the same piece type of the opposite
color) gives the negation of evaluating the position itself. -/
theorem material_evaluation_mirror (pieceAt : Nat → Option Piece) :
    material_evaluation (mirrorPieces pieceAt) = -(material_evaluation pieceAt) := by
  unfold material_evaluation
  have h := matFold_mirror pieceAt (List.range 64) 0
  simp only [neg_zero] at h
  exact h

theorem PIECE_VALUES_get_nonneg (t : Nat) : 0 ≤ PIECE_VALUES_get t := by
  unfold PIECE_VALUES_get
  split <;> decide

theorem PIECE_VALUES_get_le (t : Nat) : PIECE_VALUES_get t ≤ 20000 := by
  unfold PIECE_VALUES_get
  split <;> decide

theorem matStep_abs_le (pieceAt : Nat → Option Piece) (a : Int) (sq : Nat) :
    |matStep pieceAt a sq| ≤ |a| + 20000 := by
  unfold matStep
  cases h : pieceAt sq with
  | none =>
    have h20 : (0 : Int) ≤ 20000 := by decide
    exact le_add_of_nonneg_right h20
  | some p =>
    have h0 := PIECE_VALUES_get_nonneg p.piece_type
    have h1 := PIECE_VALUES_get_le p.piece_type
    have hv : |(if p.color = true then PIECE_VALUES_get p.piece_type
        else -PIECE_VALUES_get p.piece_type)| ≤ 20000 := by
      split
      · rw [abs_of_nonneg h0]; exact h1
      · rw [abs_neg, abs_of_nonneg h0]; exact h1
    calc |a + (if p.color = true then PIECE_VALUES_get p.piece_type
            else -PIECE_VALUES_get p.piece_type)|
        ≤ |a| + |(if p.color = true then PIECE_VALUES_get p.piece_type
            else -PIECE_VALUES_get p.piece_type)| := abs_add _ _
      _ ≤ |a| + 20000 := add_le_add_left hv _

theorem matFold_abs_le (pieceAt : Nat → Option Piece) :
    ∀ (l : List Nat) (a : Int),
      |l.foldl (matStep pieceAt) a| ≤ |a| + 20000 * l.length
  | [], a => by simp
  | sq :: l, a => by
    rw [List.foldl_cons]
    calc |List.foldl (matStep pieceAt) (matStep pieceAt a sq) l|
        ≤ |matStep pieceAt a sq| + 20000 * l.length := matFold_abs_le pieceAt l _
      _ ≤ (|a| + 20000) + 20000 * l.length := by
          have := matStep_abs_le pieceAt a sq; omega
      _ = |a| + 20000 * (sq :: l).length := by
          simp [List.length_cons]; ring

/-- The material evaluation of any placement is bounded by 64 * 20000. -/
theorem material_evaluation_abs_le (pieceAt : Nat → Option Piece) :
    |material_evaluation pieceAt| ≤ 1280000 := by
  have h := matFold_abs_le pieceAt (List.range 64) 0
  simpa using h

theorem signFactor_mul_abs {c : Int} (e : Int) (hc : c = 1 ∨ c = -1) : |c * e| = |e| := by
  rcases hc with h | h <;> subst h <;> simp

/-!
## Search: value bounds and root-loop characterization
-/

theorem nmGo_abs_le (f : GPos → Int → Int → Int → Int) (beta color : Int) :
    ∀ (l : List (Move × GPos)) (me alpha : Int),
      (∀ mq ∈ l, ∀ a b : Int, |f mq.2 a b (-color)| ≤ 1280000) →
      |me| ≤ 1280000 →
      |nmGo f beta color l me alpha| ≤ 1280000
  | [], me, alpha => by
    intro _ hme
    simp only [nmGo]
    exact hme
  | (m, q) :: rest, me, alpha => by
    intro hf hme
    simp only [nmGo]
    have hval : |(-(f q (-beta) (-alpha) (-color)))| ≤ 1280000 := by
      rw [abs_neg]; exact hf (m, q) (List.mem_cons_self _ _) _ _
    have hme1 : |(if me < -(f q (-beta) (-alpha) (-color))
        then -(f q (-beta) (-alpha) (-color)) else me)| ≤ 1280000 := by
      split
      · exact hval
      · exact hme
    split
    · exact hme1
    · exact nmGo_abs_le f beta color rest _ _
        (fun mq hmq a b => hf mq (List.mem_cons_of_mem _ hmq) a b) hme1

theorem negamax_abs_le :
    ∀ (d : Nat) (p : GPos) (alpha beta c : Int), WFPos p → (c = 1 ∨ c = -1) →
      |negamax d p alpha beta c| ≤ 1280000
  | 0, p, alpha, beta, c => by
    intro _ hc
    simp only [negamax]
    rw [signFactor_mul_abs _ hc]
    exact material_evaluation_abs_le _
  | d + 1, p, alpha, beta, c => by
    intro hwf hc
    have hcneg : -c = 1 ∨ -c = -1 := by
      rcases hc with h | h <;> subst h <;> simp
    simp only [negamax]
    split
    · rw [signFactor_mul_abs _ hc]
      exact material_evaluation_abs_le _
    next hgo =>
      have hne : p.moves ≠ [] := hwf.no_moves_over (by
        cases hg : p.gameOver
        · rfl
        · exact absurd hg hgo)
      obtain ⟨mq0, rest, hmoves⟩ := List.exists_cons_of_ne_nil hne
      have hch := hwf.children
      rw [hmoves] at hch ⊢
      have hf : ∀ mq ∈ mq0 :: rest, ∀ a b : Int, |negamax d mq.2 a b (-c)| ≤ 1280000 :=
        fun mq hmq a b => negamax_abs_le d mq.2 a b (-c) (hch mq hmq) hcneg
      rcases mq0 with ⟨m0, q0⟩
      simp only [nmGo]
      have hv0 : |(-(negamax d q0 (-beta) (-alpha) (-c)))| ≤ 1280000 := by
        rw [abs_neg]; exact hf (m0, q0) (List.mem_cons_self _ _) _ _
      have hlt : (-(10 ^ 9 : Int)) < -(negamax d q0 (-beta) (-alpha) (-c)) := by
        have := (abs_le.mp hv0).1
        omega
      rw [if_pos hlt]
      split
      · exact hv0
      · exact nmGo_abs_le (negamax d) beta c rest _ _
          (fun mq hmq a b => hf mq (List.mem_cons_of_mem _ hmq) a b) hv0

/-- The score the root loop assigns to a child position. -/
def rootVal (f : GPos → Int → Int → Int → Int) (color : Int) (q : GPos) : Int :=
  -(f q (-(10 ^ 9 : Int)) (10 ^ 9 : Int) (-color))

/-- The root loop of `find_best_move_negamax` either keeps its running
best move (when no score beats the running best), or returns the label of
the first child attaining the maximal score among those beating the
running best. -/
theorem fbmGo_spec (f : GPos → Int → Int → Int → Int) (color : Int) :
    ∀ (l : List (Move × GPos)) (best : Int) (bm : Option Move),
      (fbmGo f color l best bm = bm ∧ ∀ mq ∈ l, rootVal f color mq.2 ≤ best) ∨
      (∃ i, ∃ h : i < l.length,
        fbmGo f color l best bm = some (l.get ⟨i, h⟩).1 ∧
        best < rootVal f color (l.get ⟨i, h⟩).2 ∧
        (∀ j, ∀ hj : j < l.length,
          rootVal f color (l.get ⟨j, hj⟩).2 ≤ rootVal f color (l.get ⟨i, h⟩).2) ∧
        (∀ j, ∀ hj : j < l.length, j < i →
          rootVal f color (l.get ⟨j, hj⟩).2 < rootVal f color (l.get ⟨i, h⟩).2))
  | [], best, bm => by
    left
    constructor
    · rfl
    · intro mq hmq; cases hmq
  | (m, q) :: rest, best, bm => by
    by_cases hb : best < rootVal f color q
    · have heval : fbmGo f color ((m, q) :: rest) best bm
          = if best < rootVal f color q then fbmGo f color rest (rootVal f color q) (some m)
            else fbmGo f color rest best bm := rfl
      rw [if_pos hb] at heval
      rcases fbmGo_spec f color rest (rootVal f color q) (some m) with ⟨heq, hall⟩ | ⟨i, h, heq, hgt, hmax, hstr⟩
      · right
        refine ⟨0, by simp, ?_, ?_, ?_, ?_⟩
        · rw [heval, heq]; rfl
        · exact hb
        · intro j hj
          match j, hj with
          | 0, _ => exact le_refl _
          | jj + 1, hj =>
            simp only [List.get_cons_succ]
            exact hall _ (rest.get_mem jj (Nat.lt_of_succ_lt_succ hj))
        · intro j hj hji; exact absurd hji (Nat.not_lt_zero j)
      · right
        refine ⟨i + 1, Nat.succ_lt_succ h, ?_, ?_, ?_, ?_⟩
        · rw [heval, heq]; rfl
        · exact lt_trans hb (by simpa using hgt)
        · intro j hj
          match j, hj with
          | 0, _ =>
            simp only [List.get_cons_succ]
            exact le_of_lt (by simpa using hgt)
          | jj + 1, hj =>
            simp only [List.get_cons_succ]
            exact hmax jj (Nat.lt_of_succ_lt_succ hj)
        · intro j hj hji
          match j, hj with
          | 0, _ =>
            simp only [List.get_cons_succ]
            exact (by simpa using hgt)
          | jj + 1, hj =>
            simp only [List.get_cons_succ]
            exact hstr jj (Nat.lt_of_succ_lt_succ hj) (Nat.lt_of_succ_lt_succ hji)
    · have hle : rootVal f color q ≤ best := not_lt.mp hb
      have heval : fbmGo f color ((m, q) :: rest) best bm
          = if best < rootVal f color q then fbmGo f color rest (rootVal f color q) (some m)
            else fbmGo f color rest best bm := rfl
      rw [if_neg hb] at heval
      rcases fbmGo_spec f color rest best bm with ⟨heq, hall⟩ | ⟨i, h, heq, hgt, hmax, hstr⟩
      · left
        constructor
        · rw [heval, heq]
        · intro mq hmq
          rcases List.mem_cons.mp hmq with hmq | hmq
          · rw [hmq]; exact hle
          · exact hall mq hmq
      · right
        refine ⟨i + 1, Nat.succ_lt_succ h, ?_, ?_, ?_, ?_⟩
        · rw [heval, heq]; rfl
        · simpa using hgt
        · intro j hj
          match j, hj with
          | 0, _ =>
            simp only [List.get_cons_succ]
            exact le_trans hle (le_of_lt (by simpa using hgt))
          | jj + 1, hj =>
            simp only [List.get_cons_succ]
            exact hmax jj (Nat.lt_of_succ_lt_succ hj)
        · intro j hj hji
          match j, hj with
          | 0, _ =>
            simp only [List.get_cons_succ]
            exact lt_of_le_of_lt hle (by simpa using hgt)
          | jj + 1, hj =>
            simp only [List.get_cons_succ]
            exact hstr jj (Nat.lt_of_succ_lt_succ hj) (Nat.lt_of_succ_lt_succ hji)

/-!
## Claims C1 and C3
-/

/-- C1: for every position with at least one legal move and depth in
{1,2,3}, `find_best_move_negamax` returns a move from the legal-move set;
for every position with no legal moves it returns `None`. -/
theorem find_best_move_negamax_legal (p : GPos) (d : Nat)
    (_hd : d = 1 ∨ d = 2 ∨ d = 3) (hwf : WFPos p) :
    (p.moves = [] → find_best_move_negamax p d = none) ∧
    (p.moves ≠ [] → ∃ m, find_best_move_negamax p d = some m ∧ m ∈ p.moves.map Prod.fst) := by
  have hfb : find_best_move_negamax p d
      = fbmGo (negamax (d - 1)) (rootPerspective p) p.moves (-(10 ^ 9 : Int)) none := rfl
  constructor
  · intro h0
    rw [hfb, h0]
    rfl
  · intro hne
    have hc : rootPerspective p = 1 ∨ rootPerspective p = -1 := by
      unfold rootPerspective; split <;> simp
    have hcneg : -(rootPerspective p) = 1 ∨ -(rootPerspective p) = -1 := by
      rcases hc with h | h <;> rw [h] <;> simp
    rcases fbmGo_spec (negamax (d - 1)) (rootPerspective p) p.moves (-(10 ^ 9 : Int)) none with
      ⟨heq, hall⟩ | ⟨i, h, heq, hgt, hmax, hstr⟩
    · exfalso
      obtain ⟨mq0, rest, hmoves⟩ := List.exists_cons_of_ne_nil hne
      have hwf0 : WFPos mq0.2 :=
        hwf.children mq0 (by rw [hmoves]; exact List.mem_cons_self _ _)
      have hb := negamax_abs_le (d - 1) mq0.2 (-(10 ^ 9 : Int)) (10 ^ 9 : Int)
        (-(rootPerspective p)) hwf0 hcneg
      have hle := hall mq0 (by rw [hmoves]; exact List.mem_cons_self _ _)
      unfold rootVal at hle
      have h1 := (abs_le.mp hb).2
      have hpow : ((10 : Int) ^ 9) = 1000000000 := by norm_num
      rw [hpow] at hle h1
      omega
    · exact ⟨(p.moves.get ⟨i, h⟩).1, hfb.trans heq,
        List.mem_map.mpr ⟨p.moves.get ⟨i, h⟩, p.moves.get_mem i h, rfl⟩⟩

def cw1 : GPos :=
  GPos.mk (fun _ => none) false true true false false false false []

def pw1 : GPos :=
  GPos.mk (fun _ => none) true false false false false false false
    [(⟨12, 28, none⟩, cw1), (⟨11, 27, none⟩, cw1)]

theorem cw1_wf : WFPos cw1 := by
  refine WFPos.mk _ (fun h => absurd h (by decide)) (fun mq hmq => ?_)
  simp [cw1, GPos.moves] at hmq

theorem pw1_wf : WFPos pw1 := by
  refine WFPos.mk _ (fun _ => ?_) (fun mq hmq => ?_)
  · simp [pw1, GPos.moves]
  · have hm : pw1.moves = [(⟨12, 28, none⟩, cw1), (⟨11, 27, none⟩, cw1)] := rfl
    rw [hm] at hmq
    rcases List.mem_cons.mp hmq with h | h
    · rw [h]; exact cw1_wf
    · rcases List.mem_cons.mp h with h2 | h2
      · rw [h2]; exact cw1_wf
      · exact absurd h2 (List.not_mem_nil _)

/-- Witness for C1 at a concrete two-move position and depth 1. -/
theorem find_best_move_negamax_legal_witness :
    ∃ m, find_best_move_negamax pw1 1 = some m ∧ m ∈ pw1.moves.map Prod.fst :=
  (find_best_move_negamax_legal pw1 1 (Or.inl rfl) pw1_wf).2 (by simp [pw1, GPos.moves])

theorem depth0_rootVal (c : Int) (q : GPos) :
    rootVal (negamax 0) c q = c * material_evaluation q.pieceAt := by
  unfold rootVal
  simp only [negamax]
  ring

/-- C3: at depth 1, `find_best_move_negamax` returns the first move (in the
rules engine enumeration order) that maximizes the material evaluation of
the resulting position from the perspective of the side to move. -/
theorem find_best_move_negamax_depth1_argmax (p : GPos) (hne : p.moves ≠ []) :
    ∃ i, ∃ h : i < p.moves.length,
      find_best_move_negamax p 1 = some ((p.moves.get ⟨i, h⟩).1) ∧
      (∀ j, ∀ hj : j < p.moves.length,
        rootPerspective p * material_evaluation ((p.moves.get ⟨j, hj⟩).2.pieceAt) ≤
          rootPerspective p * material_evaluation ((p.moves.get ⟨i, h⟩).2.pieceAt)) ∧
      (∀ j, ∀ hj : j < p.moves.length, j < i →
        rootPerspective p * material_evaluation ((p.moves.get ⟨j, hj⟩).2.pieceAt) <
          rootPerspective p * material_evaluation ((p.moves.get ⟨i, h⟩).2.pieceAt)) := by
  have hfb : find_best_move_negamax p 1
      = fbmGo (negamax 0) (rootPerspective p) p.moves (-(10 ^ 9 : Int)) none := rfl
  have hc : rootPerspective p = 1 ∨ rootPerspective p = -1 := by
    unfold rootPerspective; split <;> simp
  rcases fbmGo_spec (negamax 0) (rootPerspective p) p.moves (-(10 ^ 9 : Int)) none with
    ⟨heq, hall⟩ | ⟨i, h, heq, hgt, hmax, hstr⟩
  · exfalso
    obtain ⟨mq0, rest, hmoves⟩ := List.exists_cons_of_ne_nil hne
    have hle := hall mq0 (by rw [hmoves]; exact List.mem_cons_self _ _)
    rw [depth0_rootVal] at hle
    have habs : |rootPerspective p * material_evaluation mq0.2.pieceAt| ≤ 1280000 := by
      rw [signFactor_mul_abs _ hc]; exact material_evaluation_abs_le _
    have h1 := (abs_le.mp habs).1
    have hpow : ((10 : Int) ^ 9) = 1000000000 := by norm_num
    rw [hpow] at hle
    omega
  · refine ⟨i, h, hfb.trans heq, ?_, ?_⟩
    · intro j hj
      have hx := hmax j hj
      rw [depth0_rootVal, depth0_rootVal] at hx
      exact hx
    · intro j hj hji
      have hx := hstr j hj hji
      rw [depth0_rootVal, depth0_rootVal] at hx
      exact hx

def cw3a : GPos :=
  GPos.mk (fun _ => none) false false false false false false false []

def cw3b : GPos :=
  GPos.mk (fun sq => if sq = 0 then some ⟨1, true⟩ else none) false false false false false false false []

def pw3 : GPos :=
  GPos.mk (fun _ => none) true false false false false false false
    [(⟨8, 16, none⟩, cw3a), (⟨12, 28, none⟩, cw3b)]

/-- Witness for C3 at a concrete position whose second move wins a pawn. -/
theorem find_best_move_negamax_depth1_argmax_witness :
    ∃ i, ∃ h : i < pw3.moves.length,
      find_best_move_negamax pw3 1 = some ((pw3.moves.get ⟨i, h⟩).1) ∧
      (∀ j, ∀ hj : j < pw3.moves.length,
        rootPerspective pw3 * material_evaluation ((pw3.moves.get ⟨j, hj⟩).2.pieceAt) ≤
          rootPerspective pw3 * material_evaluation ((pw3.moves.get ⟨i, h⟩).2.pieceAt)) ∧
      (∀ j, ∀ hj : j < pw3.moves.length, j < i →
        rootPerspective pw3 * material_evaluation ((pw3.moves.get ⟨j, hj⟩).2.pieceAt) <
          rootPerspective pw3 * material_evaluation ((pw3.moves.get ⟨i, h⟩).2.pieceAt)) :=
  find_best_move_negamax_depth1_argmax pw3 (by simp [pw3, GPos.moves])

/-!
## Claim C5: the selection-cursor invariant
-/

/-- The selection invariant that `on_square_click` actually maintains: a
selected square is occupied, and its piece has the human color unless the
AI is disabled (with AI disabled any piece may be selected). -/
def SelInv (s : MachineState) : Prop :=
  ∀ t, s.selected_sq = some t →
    ∃ p, s.board.pieceAt t = some p ∧ (p.color = s.human_color ∨ s.ai_enabled = false)

def bC5 : GPos :=
  GPos.mk (fun sq => if sq = 48 then some ⟨1, false⟩ else none)
    true false false false false false false []

def sC5 : MachineState :=
  { board := bC5
    move_history := []
    selected_sq := none
    legal_squares := []
    ai_thinking := false
    ai_enabled := false
    human_color := true
    captured_by_white_symbols := []
    captured_by_black_symbols := [] }

/-- Counterexample to C5 as stated: with AI disabled and white to move, a
click on the square of a black pawn sets the selection cursor to that square,
whose piece color is not the side currently allowed to move
(`board.turn`). -/
theorem on_square_click_selects_nonturn_piece :
    (on_square_click sC5 48).selected_sq = some 48 ∧
    (on_square_click sC5 48).board.pieceAt 48 = some (Piece.mk 1 false) ∧
    (on_square_click sC5 48).board.turn = true ∧
    (Piece.mk 1 false).color ≠ (on_square_click sC5 48).board.turn := by
  refine ⟨?_, ?_, ?_, ?_⟩ <;> decide

/-!
Branch-by-branch computation lemmas for `on_square_click`.
-/

theorem osc_thinking (s : MachineState) (sq : Nat) (h1 : s.ai_thinking = true) :
    on_square_click s sq = s := by
  unfold on_square_click
  rw [if_pos h1]

theorem osc_none_nopiece (s : MachineState) (sq : Nat)
    (h1 : s.ai_thinking = false) (h2 : s.selected_sq = none)
    (h3 : s.board.pieceAt sq = none) :
    on_square_click s sq = s := by
  unfold on_square_click
  simp [h1, h2, h3]

theorem osc_none_select (s : MachineState) (sq : Nat) (p : Piece)
    (h1 : s.ai_thinking = false) (h2 : s.selected_sq = none)
    (h3 : s.board.pieceAt sq = some p)
    (h4 : (p.color == s.human_color || !s.ai_enabled) = true) :
    on_square_click s sq
      = { s with selected_sq := some sq, legal_squares := selectSquares s.board sq } := by
  unfold on_square_click
  simp [h1, h2, h3, h4]

theorem osc_none_noselect (s : MachineState) (sq : Nat) (p : Piece)
    (h1 : s.ai_thinking = false) (h2 : s.selected_sq = none)
    (h3 : s.board.pieceAt sq = some p)
    (h4 : (p.color == s.human_color || !s.ai_enabled) = false) :
    on_square_click s sq = s := by
  unfold on_square_click
  simp [h1, h2, h3, h4]

theorem osc_push (s : MachineState) (sq sel : Nat)
    (h1 : s.ai_thinking = false) (h2 : s.selected_sq = some sel)
    (h3 : clickMove s sel sq ∈ s.board.legalMoves) :
    on_square_click s sq
      = { push_move s (clickMove s sel sq) with selected_sq := none, legal_squares := [] } := by
  unfold on_square_click
  simp [h1, h2, h3]

theorem osc_reselect (s : MachineState) (sq sel : Nat) (p : Piece)
    (h1 : s.ai_thinking = false) (h2 : s.selected_sq = some sel)
    (h3 : clickMove s sel sq ∉ s.board.legalMoves)
    (h4 : s.board.pieceAt sq = some p) (h5 : (p.color == s.human_color) = true) :
    on_square_click s sq
      = { s with selected_sq := some sq, legal_squares := selectSquares s.board sq } := by
  unfold on_square_click
  simp [h1, h2, h3, h4, h5]

theorem osc_deselect_piece (s : MachineState) (sq sel : Nat) (p : Piece)
    (h1 : s.ai_thinking = false) (h2 : s.selected_sq = some sel)
    (h3 : clickMove s sel sq ∉ s.board.legalMoves)
    (h4 : s.board.pieceAt sq = some p) (h5 : (p.color == s.human_color) = false) :
    on_square_click s sq = { s with selected_sq := none, legal_squares := [] } := by
  unfold on_square_click
  simp [h1, h2, h3, h4, h5]

theorem osc_deselect_empty (s : MachineState) (sq sel : Nat)
    (h1 : s.ai_thinking = false) (h2 : s.selected_sq = some sel)
    (h3 : clickMove s sel sq ∉ s.board.legalMoves)
    (h4 : s.board.pieceAt sq = none) :
    on_square_click s sq = { s with selected_sq := none, legal_squares := [] } := by
  unfold on_square_click
  simp [h1, h2, h3, h4]

/-- C5 (amended): every `on_square_click` transition preserves the
invariant that a set selection cursor points at an occupied square whose
piece is of the human color, or at any occupied square when the AI is
disabled. -/
theorem on_square_click_preserves_SelInv (s : MachineState) (sq : Nat)
    (h : SelInv s) : SelInv (on_square_click s sq) := by
  cases ht : s.ai_thinking with
  | true => rw [osc_thinking s sq ht]; exact h
  | false =>
    cases hsel : s.selected_sq with
    | none =>
      cases hp : s.board.pieceAt sq with
      | none => rw [osc_none_nopiece s sq ht hsel hp]; exact h
      | some p =>
        cases hcond : (p.color == s.human_color || !s.ai_enabled) with
        | false => rw [osc_none_noselect s sq p ht hsel hp hcond]; exact h
        | true =>
          rw [osc_none_select s sq p ht hsel hp hcond]
          intro t htt
          have h2 : some sq = some t := htt
          rcases Option.some_inj.mp h2 with rfl
          refine ⟨p, hp, ?_⟩
          rcases Bool.or_eq_true _ _ |>.mp hcond with hcol | hdis
          · exact Or.inl (by simpa using hcol)
          · exact Or.inr (by simpa using hdis)
    | some sel =>
      by_cases hmv : clickMove s sel sq ∈ s.board.legalMoves
      · rw [osc_push s sq sel ht hsel hmv]
        intro t htt
        have h2 : (none : Option Nat) = some t := htt
        exact Option.noConfusion h2
      · cases hp : s.board.pieceAt sq with
        | none =>
          rw [osc_deselect_empty s sq sel ht hsel hmv hp]
          intro t htt
          have h2 : (none : Option Nat) = some t := htt
          exact Option.noConfusion h2
        | some p =>
          cases hcol : (p.color == s.human_color) with
          | false =>
            rw [osc_deselect_piece s sq sel p ht hsel hmv hp hcol]
            intro t htt
            have h2 : (none : Option Nat) = some t := htt
            exact Option.noConfusion h2
          | true =>
            rw [osc_reselect s sq sel p ht hsel hmv hp hcol]
            intro t htt
            have h2 : some sq = some t := htt
            rcases Option.some_inj.mp h2 with rfl
            exact ⟨p, hp, Or.inl (by simpa using hcol)⟩

/-- Witness for the amended C5 at a concrete state and click. -/
theorem on_square_click_preserves_SelInv_witness :
    SelInv (on_square_click sC5 48) :=
  on_square_click_preserves_SelInv sC5 48 (by
    intro t ht
    rw [show sC5.selected_sq = none from rfl] at ht
    exact Option.noConfusion ht)

/-!
## Claim C6: terminal detection and priority in `_render_board`
-/

def bC6 : GPos :=
  GPos.mk (fun _ => none) true false false false false false true []

/-- Counterexample to C6 as stated: a position where only a threefold
repetition claim is available is *not* transitioned to game over —
`_render_board` never tests threefold repetition. -/
theorem render_board_misses_threefold :
    bC6.canClaimThreefold = true ∧
    bC6.checkmate = false ∧ bC6.stalemate = false ∧
    bC6.insufficientMaterial = false ∧ bC6.canClaimFiftyMoves = false ∧
    render_board_game_over bC6 = none := by
  refine ⟨rfl, rfl, rfl, rfl, rfl, rfl⟩

/-- C6 (amended): after a move, if any of checkmate, stalemate,
insufficient material or a claimable fifty-move rule holds, `_render_board`
transitions to game over, and when several hold the reported reason follows
the fixed priority checkmate, stalemate, insufficient material, fifty-move
rule (threefold repetition is not checked). -/
theorem render_board_terminal_priority (b : GPos) :
    ((b.checkmate = true ∨ b.stalemate = true ∨ b.insufficientMaterial = true ∨
        b.canClaimFiftyMoves = true) → (render_board_game_over b).isSome = true) ∧
    (b.checkmate = true → render_board_game_over b = some (GOReason.checkmateWin (!b.turn))) ∧
    (b.checkmate = false → b.stalemate = true →
      render_board_game_over b = some GOReason.stalemateDraw) ∧
    (b.checkmate = false → b.stalemate = false → b.insufficientMaterial = true →
      render_board_game_over b = some GOReason.insufficientDraw) ∧
    (b.checkmate = false → b.stalemate = false → b.insufficientMaterial = false →
      b.canClaimFiftyMoves = true → render_board_game_over b = some GOReason.fiftyDraw) := by
  rcases b with ⟨pa, tu, go, cm, st, im, ff, tf, mv⟩
  unfold render_board_game_over
  cases cm <;> cases st <;> cases im <;> cases ff <;>
    simp [GPos.checkmate, GPos.stalemate, GPos.insufficientMaterial,
      GPos.canClaimFiftyMoves, GPos.turn]

def bC6cm : GPos :=
  GPos.mk (fun _ => none) true true true false true false false []

/-- Witness for the amended C6: a checkmated position (with a simultaneous
insufficient-material flag) reports checkmate, with the winner being the
side not to move. -/
theorem render_board_terminal_priority_witness :
    render_board_game_over bC6cm = some (GOReason.checkmateWin (!bC6cm.turn)) :=
  (render_board_terminal_priority bC6cm).2.1 rfl

/-!
## Claim C8: AI dispatch is a no-op while busy
-/

/-- C8: dispatching `_ai_move_async` while `ai_thinking` is true is a
no-op (no worker started, state unchanged); from an idle non-terminal
state, the first dispatch starts a worker and sets the flag, and a second
dispatch then starts no further worker and changes nothing — so two
dispatch attempts start exactly one worker (hence apply exactly one AI
move). -/
theorem ai_move_async_busy_noop (s : MachineState) :
    (s.ai_thinking = true → ai_move_async s = (s, false)) ∧
    (s.ai_thinking = false → s.board.gameOver = false →
      ((ai_move_async s).2 = true ∧ (ai_move_async s).1.ai_thinking = true ∧
        ai_move_async (ai_move_async s).1 = ((ai_move_async s).1, false))) := by
  constructor
  · intro h1
    unfold ai_move_async
    rw [h1]
    simp
  · intro h1 h2
    unfold ai_move_async
    rw [h1, h2]
    simp

def sC8 : MachineState :=
  { board := bC5
    move_history := []
    selected_sq := none
    legal_squares := []
    ai_thinking := false
    ai_enabled := true
    human_color := true
    captured_by_white_symbols := []
    captured_by_black_symbols := [] }

/-- Witness for C8: concrete busy state is untouched, and from a concrete
idle state the second of two dispatches is a no-op. -/
theorem ai_move_async_busy_noop_witness :
    ai_move_async { sC8 with ai_thinking := true } = ({ sC8 with ai_thinking := true }, false) ∧
    ai_move_async (ai_move_async sC8).1 = ((ai_move_async sC8).1, false) :=
  ⟨(ai_move_async_busy_noop { sC8 with ai_thinking := true }).1 rfl,
    ((ai_move_async_busy_noop sC8).2 rfl rfl).2.2⟩

/-!
## Claim C10: the captured-piece tally
-/

/-- C10: `_push_move` appends to a captured-piece tally exactly when the
destination square held a piece before the move: an empty destination (as
in an en-passant capture) leaves both tallies unchanged, and a piece of a
real piece type appends its symbol to the tally of the capturing side
(white pieces go to `captured_by_black_symbols` and vice versa), leaving
the other tally unchanged. -/
theorem push_move_captured_tally (s : MachineState) (m : Move) :
    (s.board.pieceAt m.to_square = none →
      (push_move s m).captured_by_white_symbols = s.captured_by_white_symbols ∧
      (push_move s m).captured_by_black_symbols = s.captured_by_black_symbols) ∧
    (∀ p, s.board.pieceAt m.to_square = some p → 1 ≤ p.piece_type → p.piece_type ≤ 6 →
      (p.color = true →
        (push_move s m).captured_by_black_symbols
          = s.captured_by_black_symbols ++ [p.symbolC.getD '?'] ∧
        (push_move s m).captured_by_white_symbols = s.captured_by_white_symbols) ∧
      (p.color = false →
        (push_move s m).captured_by_white_symbols
          = s.captured_by_white_symbols ++ [p.symbolC.getD '?'] ∧
        (push_move s m).captured_by_black_symbols = s.captured_by_black_symbols)) := by
  constructor
  · intro h0
    unfold push_move
    rw [h0]
    exact ⟨rfl, rfl⟩
  · intro p hp hlo hhi
    unfold push_move
    rw [hp]
    unfold add_captured_piece
    rcases p with ⟨t, col⟩
    have hsy : ∃ c, (Piece.mk t col).symbolC = some c := by
      unfold Piece.symbolC typeSymbol
      interval_cases t <;> cases col <;> simp
    obtain ⟨c, hc⟩ := hsy
    rw [hc]
    constructor
    · intro hcol
      subst hcol
      simp [hc]
    · intro hcol
      subst hcol
      simp [hc]

def bC10 : GPos :=
  GPos.mk (fun sq => if sq = 28 then some ⟨5, false⟩ else none)
    true false false false false false false []

def sC10 : MachineState :=
  { board := bC10
    move_history := []
    selected_sq := none
    legal_squares := []
    ai_thinking := false
    ai_enabled := true
    human_color := true
    captured_by_white_symbols := []
    captured_by_black_symbols := [] }

/-- Witness for C10: capturing a black queen appends its symbol to the
white tally and leaves the black tally unchanged. -/
theorem push_move_captured_tally_witness :
    (push_move sC10 ⟨12, 28, none⟩).captured_by_white_symbols
      = sC10.captured_by_white_symbols ++ [(Piece.mk 5 false).symbolC.getD '?'] ∧
    (push_move sC10 ⟨12, 28, none⟩).captured_by_black_symbols
      = sC10.captured_by_black_symbols :=
  ((push_move_captured_tally sC10 ⟨12, 28, none⟩).2 (Piece.mk 5 false) rfl
    (by decide) (by decide)).2 rfl

/-!
## Claim C2: the save/load round trip
-/

def sC2 : PersistState :=
  { board := ⟨STARTING_FEN⟩
    move_history := [⟨12, 28, none⟩]
    human_color := false
    ai_enabled := true
    search_depth := 3
    captured_by_white_symbols := []
    captured_by_black_symbols := []
    has_saved_game := true }

/-- C2 fails on the code: saving a session with search depth 3 into a fresh
config file and loading it back yields search depth 2 — `save_game_state`
invokes `on_difficulty_change()` with the difficulty read from the existing
file (default "Medium"), overwriting `search_depth` before writing it out.
The other four components of the claim (fen, move history, human color,
AI-enabled flag) do round-trip on this input. -/
theorem save_then_load_loses_search_depth :
    (load_game_state freshPersistState (save_game_state none sC2 false).1).search_depth = 2 ∧
    sC2.search_depth = 3 ∧
    (load_game_state freshPersistState (save_game_state none sC2 false).1).board.fen
      = sC2.board.fen ∧
    (load_game_state freshPersistState (save_game_state none sC2 false).1).move_history
      = sC2.move_history ∧
    (load_game_state freshPersistState (save_game_state none sC2 false).1).human_color
      = sC2.human_color ∧
    (load_game_state freshPersistState (save_game_state none sC2 false).1).ai_enabled
      = sC2.ai_enabled := by
  decide

/-!
## Claim C7: corrupt saved sessions
-/

def fenC7 : List Char :=
  ("k7/8/8/8/8/8/8/K7 w - - 0 1").data

def cfgC7 : List (String × List Char) :=
  [("fen", fenC7), ("moves", ("xx").data)]

/-- C7 fails on the code: on a saved file whose fen is valid but whose move
list cannot be parsed, `load_game_state` reports no saved game (fresh-game
path) yet keeps `self.board` already assigned from the stored fen — a
component of the corrupt file is retained in the resulting session
state. -/
theorem load_retains_fen_of_corrupt_save :
    (load_game_state freshPersistState (some cfgC7)).has_saved_game = false ∧
    (load_game_state freshPersistState (some cfgC7)).board.fen = fenC7 ∧
    fenC7 ≠ STARTING_FEN ∧
    (load_game_state freshPersistState (some cfgC7)).move_history = [] := by
  decide

/-!
## Claim C9: engine-process lifetime in `_ai_move_worker`
-/

def bC9 : GPos :=
  GPos.mk (fun _ => none) true false false false false false false []

/-- C9 fails on the code: when the engine process spawns but `engine.play`
raises, the exception handler falls back to the negamax search without ever
calling `engine.quit()`, so the spawned process is not terminated before
the call returns (it is terminated on the success path). -/
theorem ai_move_worker_leaks_engine_on_play_failure :
    (ai_move_worker_engine_path ⟨true, none⟩ bC9 1).engine_spawned = true ∧
    (ai_move_worker_engine_path ⟨true, none⟩ bC9 1).engine_terminated = false ∧
    (ai_move_worker_engine_path ⟨true, some (some ⟨12, 28, none⟩)⟩ bC9 1).engine_terminated
      = true := by
  decide


